import Mathlib

/-
Verification of the graph-store / traversal-engine / session design specified for
the Spirits repository.  The repository's own file (src/Allen.py) is a fixed
script of calls into a graph API; the data model and the operations it calls
(AddVertex, AddEdge, SetProperty, GetVerticesByLabel, the traversal steps and
the session lifecycle) live outside the repository, so they are modelled here
from the specification's contracts.  The script itself (its fixed operation
order and its lack of error handling around the close call) is embedded from
src/Allen.py.
-/

namespace Spirits

/-- Modelled from the spec: a property value.  The script stores string values
(names) and one integer value (the year 2023), so values are strings or
integers. -/
inductive Value where
  | str (s : String)
  | int (n : Int)
  deriving DecidableEq, Repr

/-- Modelled from the spec (§3 Data Model): a Vertex has a unique id (string),
a label (string), and a mapping from property key to an ordered list of values
(multi-valued properties). -/
structure Vertex where
  id : String
  label : String
  props : List (String × List Value)
  deriving DecidableEq, Repr

/-- Modelled from the spec (§3 Data Model): an Edge has a unique id, a label,
an ordered pair (outVertexId, inVertexId), and a mapping from property key to a
single value. -/
structure Edge where
  id : String
  label : String
  outVertexId : String
  inVertexId : String
  props : List (String × Value)
  deriving DecidableEq, Repr

/-- Modelled from the spec (§3 Data Model): a Graph owns the set of Vertices
and Edges.  Both lists are kept in insertion order, which is the order
`GetVerticesByLabel` must produce. -/
structure Graph where
  vertices : List Vertex
  edges : List Edge
  deriving DecidableEq, Repr

/-- Modelled from the spec (§7 Error Handling): the error kinds surfaced by the
in-memory engine. -/
inductive Err where
  | duplicateId
  | notFound
  | noSuchElement
  deriving DecidableEq, Repr

def Graph.empty : Graph := ⟨[], []⟩

/-- Whether a vertex with the given id exists in the graph. -/
def Graph.hasVertex (g : Graph) (i : String) : Bool :=
  g.vertices.any (fun v => v.id == i)

/-- Whether an edge with the given id exists in the graph. -/
def Graph.hasEdge (g : Graph) (i : String) : Bool :=
  g.edges.any (fun e => e.id == i)

/-- Modelled from the spec (§4.1): `AddVertex(id, label) -> Vertex` fails with
DuplicateId if the id exists; otherwise the new vertex is appended (insertion
order) with no properties. -/
def addVertex (g : Graph) (i lab : String) : Except Err Graph :=
  if g.hasVertex i then .error .duplicateId
  else .ok { g with vertices := g.vertices ++ [⟨i, lab, []⟩] }

/-- Modelled from the spec (§4.1 and §8 example scenario): `AddEdge(id, label,
fromId, toId) -> Edge` fails with NotFound if either endpoint is missing, and
with DuplicateId if the edge id already exists; otherwise the new edge is
appended. -/
def addEdge (g : Graph) (i lab fromId toId : String) : Except Err Graph :=
  if g.hasVertex fromId && g.hasVertex toId then
    if g.hasEdge i then .error .duplicateId
    else .ok { g with edges := g.edges ++ [⟨i, lab, fromId, toId, []⟩] }
  else .error .notFound

/-- Appends a value to the ordered value list of a key in a vertex property
map, creating the key at the end if absent (multi-valued vertex properties). -/
def appendProp : List (String × List Value) → String → Value → List (String × List Value)
  | [], k, x => [(k, [x])]
  | (k0, vs) :: rest, k, x =>
    if k0 == k then (k0, vs ++ [x]) :: rest
    else (k0, vs) :: appendProp rest k x

/-- Overwrites the value of a key in an edge property map, creating the key at
the end if absent (single-valued edge properties). -/
def overwriteProp : List (String × Value) → String → Value → List (String × Value)
  | [], k, x => [(k, x)]
  | (k0, v0) :: rest, k, x =>
    if k0 == k then (k0, x) :: rest
    else (k0, v0) :: overwriteProp rest k x

/-- Modelled from the spec (§4.1): `SetProperty(elementId, key, value)` appends
for a vertex, overwrites for an edge, and fails with NotFound if the element is
absent. -/
def setProperty (g : Graph) (elementId key : String) (x : Value) : Except Err Graph :=
  if g.hasVertex elementId then
    .ok { g with vertices := g.vertices.map (fun v =>
      if v.id == elementId then { v with props := appendProp v.props key x } else v) }
  else if g.hasEdge elementId then
    .ok { g with edges := g.edges.map (fun e =>
      if e.id == elementId then { e with props := overwriteProp e.props key x } else e) }
  else .error .notFound

/-- Modelled from the spec (§4.1): `GetVerticesByLabel(label)` produces the
vertices carrying the label, in insertion order. -/
def getVerticesByLabel (g : Graph) (lab : String) : List Vertex :=
  g.vertices.filter (fun v => v.label == lab)

/-- A Graph Store mutation, as enumerated by the spec (§4.1). -/
inductive Op where
  | addV (i lab : String)
  | addE (i lab fromId toId : String)
  | setProp (elementId key : String) (x : Value)
  deriving DecidableEq, Repr

/-- Whether a mutation is an edge insertion. -/
def Op.isAddE : Op → Bool
  | .addE _ _ _ _ => true
  | _ => false

def applyOp (g : Graph) : Op → Except Err Graph
  | .addV i lab => addVertex g i lab
  | .addE i lab f t => addEdge g i lab f t
  | .setProp e k x => setProperty g e k x

/-- The graph state after attempting one mutation: a failed mutation surfaces
its error to the caller and leaves the graph unchanged (spec §7: every failure
is reported synchronously, nothing is retried). -/
def stepOp (g : Graph) (op : Op) : Graph :=
  match applyOp g op with
  | .ok g2 => g2
  | .error _ => g

/-- The graph state after a whole sequence of attempted mutations. -/
def run (ops : List Op) (g : Graph) : Graph := ops.foldl stepOp g

/-- Runs a sequence of mutations, stopping at the first error (the script's
behaviour: an error aborts the run). -/
def runE : List Op → Graph → Except Err Graph
  | [], g => .ok g
  | op :: rest, g =>
    match applyOp g op with
    | .ok g2 => runE rest g2
    | .error e => .error e

/-- An element flowing through a traversal: a vertex, or the property map
produced by the `valueMap` step. -/
inductive Elem where
  | vtx (v : Vertex)
  | vmap (m : List (String × List Value))
  deriving DecidableEq, Repr

/-- Modelled from the spec (§4.2): the property-map representation a vertex is
mapped to by `valueMap(includeId)`; with `includeId` the id and label entries
come first. -/
def valueMapOf (includeId : Bool) (v : Vertex) : List (String × List Value) :=
  if includeId then ("id", [Value.str v.id]) :: ("label", [Value.str v.label]) :: v.props
  else v.props

/-- Modelled from the spec (§4.2): the pure (non-side-effecting) traversal step
kinds the claims exercise. -/
inductive Step where
  | hasLabel (lab : String)
  | valueMap (includeId : Bool)
  deriving DecidableEq, Repr

/-- One traversal step consumes the upstream sequence and produces the
downstream sequence: `hasLabel` filters vertices by label, `valueMap` maps a
vertex to its property-map representation. -/
def runStep (xs : List Elem) : Step → List Elem
  | .hasLabel lab => xs.filter (fun e => match e with | .vtx v => v.label == lab | _ => false)
  | .valueMap b => xs.map (fun e => match e with | .vtx v => .vmap (valueMapOf b v) | x => x)

/-- Modelled from the spec (§4.2): a traversal is an ordered list of steps,
seeded by `V()` from all vertices. -/
structure Traversal where
  steps : List Step
  deriving DecidableEq, Repr

/-- Modelled from the spec (§4.2): the terminal `toList()` drains the full
sequence; it is a function of the traversal definition and the graph passed at
terminal-invocation time, so each invocation recomputes from the current
graph. -/
def Traversal.toList (t : Traversal) (g : Graph) : List Elem :=
  t.steps.foldl runStep (g.vertices.map Elem.vtx)

/-- Modelled from the spec (§4.2): the terminal `next()` pulls exactly the
first element of the sequence and fails with NoSuchElement if the sequence is
empty; the failure is surfaced, never retried (§7). -/
def Traversal.next (t : Traversal) (g : Graph) : Except Err Elem :=
  match t.toList g with
  | [] => .error .noSuchElement
  | x :: _ => .ok x

/-- Modelled from the spec (§3, §4.3): a Session has no state beyond its
open/closed flag. -/
structure Session where
  isOpen : Bool
  deriving DecidableEq, Repr

/-- Modelled from the spec (§4.3): `Open(config)` yields an open Session. -/
def openSession : Session := ⟨true⟩

/-- Modelled from the spec (§4.3): `Close(session)` is idempotent and never
fails: it always succeeds and yields the closed session state. -/
def closeSession (_ : Session) : Except Err Session := .ok ⟨false⟩

/-- A statement of the script src/Allen.py between opening and closing the
connection: the n-th remote operation (0: addV Alice, 1: addV Bob, 2: addE
knows, 3: the read query), or the final `connection.close()`. -/
inductive Stmt where
  | remoteOp (n : Nat)
  | closeConn
  deriving DecidableEq, Repr

/-- The straight-line statement sequence of src/Allen.py: four remote
operations followed by `connection.close()`, with no try/finally around any of
them. -/
def allenScript : List Stmt :=
  [.remoteOp 0, .remoteOp 1, .remoteOp 2, .remoteOp 3, .closeConn]

/-- Executes statements in order under a failure oracle: a statement that
raises aborts the script (src/Allen.py installs no handler), so the executed
suffix is dropped.  The result is the list of statements that ran to
completion. -/
def execStmts (raises : Stmt → Bool) : List Stmt → List Stmt
  | [] => []
  | s :: rest => if raises s then [] else s :: execStmts raises rest

/-- The graph-store mutation sequence performed by src/Allen.py, in its source
order (ids as in the spec's §8 example scenario): the two person vertices with
their name properties, then the knows edge with its since property. -/
def allenOps : List Op :=
  [ .addV "1" "person", .addV "2" "person",
    .setProp "1" "name" (.str "Alice"), .setProp "2" "name" (.str "Bob"),
    .addE "e1" "knows" "1" "2", .setProp "e1" "since" (.int 2023) ]

/-- The spec's §3 invariant on a graph state: every edge's endpoint ids
reference existing vertices. -/
def Graph.wellFormed (g : Graph) : Prop :=
  ∀ e ∈ g.edges, g.hasVertex e.outVertexId = true ∧ g.hasVertex e.inVertexId = true

/-- Vertex-id uniqueness (spec §3: the Graph enforces vertex-id uniqueness). -/
def Graph.idsUnique (g : Graph) : Prop :=
  (g.vertices.map Vertex.id).Nodup

theorem hasVertex_iff_mem (g : Graph) (i : String) :
    g.hasVertex i = true ↔ ∃ v ∈ g.vertices, v.id = i := by
  unfold Graph.hasVertex
  rw [List.any_eq_true]
  constructor
  · rintro ⟨v, hv, hb⟩
    exact ⟨v, hv, by simpa using hb⟩
  · rintro ⟨v, hv, hb⟩
    exact ⟨v, hv, by simpa using hb⟩

/-- C1: on any graph not already containing the id, `AddVertex(id, label)`
succeeds, and `GetVerticesByLabel(label)` on the result contains the vertex
with that id exactly once — no omission, no duplication. -/
theorem addVertex_then_getVerticesByLabel_once (g : Graph) (i lab : String)
    (h : g.hasVertex i = false) :
    ∃ g2, addVertex g i lab = .ok g2 ∧
      (getVerticesByLabel g2 lab).countP (fun v => v.id == i) = 1 := by
  refine ⟨{ g with vertices := g.vertices ++ [⟨i, lab, []⟩] }, ?_, ?_⟩
  · simp [addVertex, h]
  · have hall : ∀ v ∈ g.vertices, ¬(v.id == i) = true := by
      intro v hv hb
      have : g.hasVertex i = true :=
        (hasVertex_iff_mem g i).mpr ⟨v, hv, by simpa using hb⟩
      rw [h] at this
      exact Bool.false_ne_true this
    unfold getVerticesByLabel
    simp only [List.filter_append, List.countP_append]
    have h1 : (g.vertices.filter (fun v => v.label == lab)).countP (fun v => v.id == i) = 0 := by
      apply List.countP_eq_zero.mpr
      intro v hv
      exact hall v (List.mem_filter.mp hv).1
    have h2 : (([⟨i, lab, []⟩] : List Vertex).filter
        (fun v => v.label == lab)).countP (fun v => v.id == i) = 1 := by
      simp [List.filter, List.countP, List.countP.go]
    rw [h1, h2]

/-- Witness for C1 at a concrete input: the empty graph, id "1", label
"person". -/
theorem addVertex_then_getVerticesByLabel_once_witness :
    Graph.empty.hasVertex "1" = false ∧
    ∃ g2, addVertex Graph.empty "1" "person" = .ok g2 ∧
      (getVerticesByLabel g2 "person").countP (fun v => v.id == "1") = 1 :=
  ⟨rfl, addVertex_then_getVerticesByLabel_once Graph.empty "1" "person" rfl⟩

/-- C2: `AddEdge` with a missing endpoint fails with NotFound, and the graph
state after the failed call is exactly the graph state before it (atomicity:
no vertex, edge or property changed). -/
theorem addEdge_missing_endpoint_notFound (g : Graph) (i lab fromId toId : String)
    (h : g.hasVertex fromId = false ∨ g.hasVertex toId = false) :
    addEdge g i lab fromId toId = .error .notFound ∧
    stepOp g (.addE i lab fromId toId) = g := by
  have hc : (g.hasVertex fromId && g.hasVertex toId) = false := by
    rcases h with h | h <;> simp [h]
  constructor
  · simp [addEdge, hc]
  · simp [stepOp, applyOp, addEdge, hc]

/-- Witness for C2 at a concrete input: adding the knows edge on the empty
graph, where both endpoints are missing. -/
theorem addEdge_missing_endpoint_notFound_witness :
    (Graph.empty.hasVertex "1" = false ∨ Graph.empty.hasVertex "2" = false) ∧
    (addEdge Graph.empty "e1" "knows" "1" "2" = .error .notFound ∧
     stepOp Graph.empty (.addE "e1" "knows" "1" "2") = Graph.empty) :=
  ⟨Or.inl rfl,
   addEdge_missing_endpoint_notFound Graph.empty "e1" "knows" "1" "2" (Or.inl rfl)⟩

/-- C7: the terminal `next()` either returns exactly the first element the
upstream sequence produces, or — when the upstream sequence is empty — fails
with NoSuchElement; the error is what the caller receives, with no retry. -/
theorem next_first_or_noSuchElement (t : Traversal) (g : Graph) :
    (t.toList g = [] ∧ t.next g = .error .noSuchElement) ∨
    (∃ x xs, t.toList g = x :: xs ∧ t.next g = .ok x) := by
  cases hl : t.toList g with
  | nil => exact Or.inl ⟨rfl, by simp [Traversal.next, hl]⟩
  | cons x xs => exact Or.inr ⟨x, xs, rfl, by simp [Traversal.next, hl]⟩

theorem vertices_stepOp_addE (g : Graph) (i lab f t : String) :
    (stepOp g (.addE i lab f t)).vertices = g.vertices := by
  cases h1 : (g.hasVertex f && g.hasVertex t) <;> cases h2 : g.hasEdge i <;>
    simp [stepOp, applyOp, addEdge, h1, h2]

theorem any_id_map_preserve (l : List Vertex) (f : Vertex → Vertex)
    (hf : ∀ v, (f v).id = v.id) (i : String) :
    (l.map f).any (fun v => v.id == i) = l.any (fun v => v.id == i) := by
  induction l with
  | nil => rfl
  | cons v rest ih => simp [hf, ih]

theorem setPropVertexFun_id (e k : String) (x : Value) (v : Vertex) :
    ((fun v : Vertex =>
      if v.id == e then { v with props := appendProp v.props k x } else v) v).id = v.id := by
  by_cases hv : (v.id == e) = true <;> simp [hv]

theorem hasVertex_stepOp_setProp (g : Graph) (e k : String) (x : Value) (i : String) :
    (stepOp g (.setProp e k x)).hasVertex i = g.hasVertex i := by
  cases he : g.hasVertex e
  · cases hed : g.hasEdge e
    · simp [stepOp, applyOp, setProperty, he, hed]
    · have hst : (stepOp g (.setProp e k x)).vertices = g.vertices := by
        simp [stepOp, applyOp, setProperty, he, hed]
      unfold Graph.hasVertex
      rw [hst]
  · unfold Graph.hasVertex
    simp only [stepOp, applyOp, setProperty, he]
    exact any_id_map_preserve g.vertices _ (setPropVertexFun_id e k x) i

theorem hasVertex_append_true (g : Graph) (vs : List Vertex) (es : List Edge) (i : String)
    (h : g.hasVertex i = true) :
    (Graph.mk (g.vertices ++ vs) es).hasVertex i = true := by
  unfold Graph.hasVertex at h ⊢
  simp only [List.any_append]
  simp [h]

theorem hasVertex_mono_stepOp (g : Graph) (op : Op) (i : String)
    (h : g.hasVertex i = true) : (stepOp g op).hasVertex i = true := by
  cases op with
  | addV j lab =>
    cases hj : g.hasVertex j
    · have : stepOp g (.addV j lab) =
          { g with vertices := g.vertices ++ [⟨j, lab, []⟩] } := by
        simp [stepOp, applyOp, addVertex, hj]
      rw [this]
      exact hasVertex_append_true g [⟨j, lab, []⟩] g.edges i h
    · simpa [stepOp, applyOp, addVertex, hj] using h
  | addE j lab f t =>
    unfold Graph.hasVertex at h ⊢
    rw [vertices_stepOp_addE]
    exact h
  | setProp e k x =>
    rw [hasVertex_stepOp_setProp]
    exact h

theorem wellFormed_stepOp (g : Graph) (op : Op) (h : g.wellFormed) :
    (stepOp g op).wellFormed := by
  cases op with
  | addV j lab =>
    cases hj : g.hasVertex j
    · have hst : stepOp g (.addV j lab) =
          { g with vertices := g.vertices ++ [⟨j, lab, []⟩] } := by
        simp [stepOp, applyOp, addVertex, hj]
      rw [hst]
      intro e he
      obtain ⟨h1, h2⟩ := h e he
      exact ⟨hasVertex_append_true g _ g.edges _ h1, hasVertex_append_true g _ g.edges _ h2⟩
    · simpa [stepOp, applyOp, addVertex, hj] using h
  | addE j lab f t =>
    cases h1 : (g.hasVertex f && g.hasVertex t)
    · simpa [stepOp, applyOp, addEdge, h1] using h
    · cases h2 : g.hasEdge j
      · have hst : stepOp g (.addE j lab f t) =
            { g with edges := g.edges ++ [⟨j, lab, f, t, []⟩] } := by
          simp [stepOp, applyOp, addEdge, h1, h2]
        rw [hst]
        intro e he
        rcases List.mem_append.mp he with he | he
        · obtain ⟨hv1, hv2⟩ := h e he
          exact ⟨hv1, hv2⟩
        · have hft : g.hasVertex f = true ∧ g.hasVertex t = true := by
            simpa using h1
          rcases List.mem_singleton.mp he with rfl
          exact ⟨hft.1, hft.2⟩
      · simpa [stepOp, applyOp, addEdge, h1, h2] using h
  | setProp e k x =>
    cases he : g.hasVertex e
    · cases hed : g.hasEdge e
      · simpa [stepOp, applyOp, setProperty, he, hed] using h
      · have hst : stepOp g (.setProp e k x) =
            { g with edges := g.edges.map (fun e0 =>
              if e0.id == e then { e0 with props := overwriteProp e0.props k x } else e0) } := by
          simp [stepOp, applyOp, setProperty, he, hed]
        rw [hst]
        intro e2 he2
        obtain ⟨e0, he0, rfl⟩ := List.mem_map.mp he2
        obtain ⟨hv1, hv2⟩ := h e0 he0
        by_cases hid : (e0.id == e) = true <;> simp [hid] <;> exact ⟨hv1, hv2⟩
    · have hst : (stepOp g (.setProp e k x)).edges = g.edges := by
        simp [stepOp, applyOp, setProperty, he]
      intro e2 he2
      rw [hst] at he2
      obtain ⟨hv1, hv2⟩ := h e2 he2
      rw [hasVertex_stepOp_setProp, hasVertex_stepOp_setProp]
      exact ⟨hv1, hv2⟩

theorem run_cons (op : Op) (rest : List Op) (g : Graph) :
    run (op :: rest) g = run rest (stepOp g op) := rfl

theorem run_wellFormed (ops : List Op) (g : Graph) (h : g.wellFormed) :
    (run ops g).wellFormed := by
  induction ops generalizing g with
  | nil => exact h
  | cons op rest ih =>
    rw [run_cons]
    exact ih _ (wellFormed_stepOp g op h)

/-- C3: in every graph state reachable from the empty graph by any sequence of
Graph Store mutations, every edge's outVertexId and inVertexId reference
existing vertices; since vertices are never removed and `AddEdge` checks both
endpoints before inserting, the endpoints in particular existed when the edge
was created. -/
theorem reachable_edge_endpoints_exist (ops : List Op) :
    (run ops Graph.empty).wellFormed :=
  run_wellFormed ops Graph.empty (by intro e he; cases he)

theorem ids_map_preserve (l : List Vertex) (f : Vertex → Vertex)
    (hf : ∀ v, (f v).id = v.id) : (l.map f).map Vertex.id = l.map Vertex.id := by
  induction l with
  | nil => rfl
  | cons v rest ih => simp [hf, ih]

theorem idsUnique_stepOp (g : Graph) (op : Op) (h : g.idsUnique) :
    (stepOp g op).idsUnique := by
  cases op with
  | addV j lab =>
    cases hj : g.hasVertex j
    · have hst : stepOp g (.addV j lab) =
          { g with vertices := g.vertices ++ [⟨j, lab, []⟩] } := by
        simp [stepOp, applyOp, addVertex, hj]
      have hnot : j ∉ g.vertices.map Vertex.id := by
        intro hmem
        obtain ⟨v, hv, hid⟩ := List.mem_map.mp hmem
        have : g.hasVertex j = true := (hasVertex_iff_mem g j).mpr ⟨v, hv, hid⟩
        rw [hj] at this
        exact Bool.false_ne_true this
      unfold Graph.idsUnique at h ⊢
      rw [hst]
      simp only [List.map_append, List.map_cons, List.map_nil]
      rw [List.nodup_append]
      refine ⟨h, List.nodup_singleton _, ?_⟩
      intro a ha hb
      rcases List.mem_singleton.mp hb with rfl
      exact hnot ha
    · simpa [stepOp, applyOp, addVertex, hj] using h
  | addE j lab f t =>
    unfold Graph.idsUnique at h ⊢
    rw [vertices_stepOp_addE]
    exact h
  | setProp e k x =>
    cases he : g.hasVertex e
    · cases hed : g.hasEdge e
      · simpa [stepOp, applyOp, setProperty, he, hed] using h
      · have hst : (stepOp g (.setProp e k x)).vertices = g.vertices := by
          simp [stepOp, applyOp, setProperty, he, hed]
        unfold Graph.idsUnique at h ⊢
        rw [hst]
        exact h
    · have hst : (stepOp g (.setProp e k x)).vertices = g.vertices.map (fun v =>
          if v.id == e then { v with props := appendProp v.props k x } else v) := by
        simp [stepOp, applyOp, setProperty, he]
      unfold Graph.idsUnique at h ⊢
      rw [hst, ids_map_preserve _ _ (setPropVertexFun_id e k x)]
      exact h

theorem run_idsUnique (ops : List Op) (g : Graph) (h : g.idsUnique) :
    (run ops g).idsUnique := by
  induction ops generalizing g with
  | nil => exact h
  | cons op rest ih =>
    rw [run_cons]
    exact ih _ (idsUnique_stepOp g op h)

/-- C8: on a graph already containing a vertex with the given id, `AddVertex`
fails with DuplicateId and no second vertex is created (the graph state is
unchanged); and in every reachable graph state vertex ids are unique. -/
theorem addVertex_duplicateId_unique_ids (g : Graph) (i lab : String)
    (h : g.hasVertex i = true) :
    (addVertex g i lab = .error .duplicateId ∧ stepOp g (.addV i lab) = g) ∧
    ∀ ops : List Op, (run ops Graph.empty).idsUnique := by
  refine ⟨⟨by simp [addVertex, h], by simp [stepOp, applyOp, addVertex, h]⟩, ?_⟩
  intro ops
  exact run_idsUnique ops Graph.empty List.nodup_nil

/-- Witness for C8 at a concrete input: a graph holding the person vertex "1"
rejects a second vertex with id "1". -/
theorem addVertex_duplicateId_unique_ids_witness :
    (Graph.mk [⟨"1", "person", []⟩] []).hasVertex "1" = true ∧
    ((addVertex (Graph.mk [⟨"1", "person", []⟩] []) "1" "person" = .error .duplicateId ∧
      stepOp (Graph.mk [⟨"1", "person", []⟩] []) (.addV "1" "person") =
        Graph.mk [⟨"1", "person", []⟩] []) ∧
     ∀ ops : List Op, (run ops Graph.empty).idsUnique) :=
  ⟨by decide,
   addVertex_duplicateId_unique_ids (Graph.mk [⟨"1", "person", []⟩] []) "1" "person"
     (by decide)⟩

theorem filter_vtx_map (l : List Vertex) (lab : String) :
    (l.map Elem.vtx).filter
      (fun e => match e with | Elem.vtx v => v.label == lab | _ => false) =
    (l.filter (fun v => v.label == lab)).map Elem.vtx := by
  induction l with
  | nil => rfl
  | cons v rest ih =>
    simp only [List.map_cons, List.filter_cons]
    by_cases hv : (v.label == lab) = true <;> simp [hv, ih]

theorem toList_hasLabel (g : Graph) (lab : String) :
    Traversal.toList ⟨[.hasLabel lab]⟩ g =
      (g.vertices.filter (fun v => v.label == lab)).map Elem.vtx := by
  unfold Traversal.toList
  simp only [List.foldl_cons, List.foldl_nil]
  exact filter_vtx_map g.vertices lab

theorem run_addE_vertices (es : List Op) (g : Graph)
    (h : ∀ e ∈ es, e.isAddE = true) : (run es g).vertices = g.vertices := by
  induction es generalizing g with
  | nil => rfl
  | cons op rest ih =>
    have hop := h op (List.mem_cons_self op rest)
    have hrest : ∀ e ∈ rest, e.isAddE = true := fun e he => h e (List.mem_cons_of_mem op he)
    cases op with
    | addV i lab => simp [Op.isAddE] at hop
    | setProp e k x => simp [Op.isAddE] at hop
    | addE i lab f t =>
      rw [run_cons, ih _ hrest, vertices_stepOp_addE]

/-- C4: `V().hasLabel(lab).toList()` returns exactly the vertices carrying the
label, in insertion order (the order of the graph's vertex list), and its
result — membership and order — is identical after any sequence of `AddEdge`
calls. -/
theorem hasLabel_toList_insertion_order (g : Graph) (lab : String) (es : List Op)
    (h : ∀ e ∈ es, e.isAddE = true) :
    Traversal.toList ⟨[.hasLabel lab]⟩ (run es g) =
      (g.vertices.filter (fun v => v.label == lab)).map Elem.vtx ∧
    Traversal.toList ⟨[.hasLabel lab]⟩ (run es g) =
      Traversal.toList ⟨[.hasLabel lab]⟩ g := by
  have hv := run_addE_vertices es g h
  constructor
  · rw [toList_hasLabel, hv]
  · rw [toList_hasLabel, toList_hasLabel, hv]

/-- Witness for C4 at a concrete input: a one-person graph and one edge
insertion. -/
theorem hasLabel_toList_insertion_order_witness :
    (∀ e ∈ [Op.addE "e1" "knows" "1" "1"], e.isAddE = true) ∧
    (Traversal.toList ⟨[.hasLabel "person"]⟩
        (run [Op.addE "e1" "knows" "1" "1"] (Graph.mk [⟨"1", "person", []⟩] [])) =
      ((Graph.mk [⟨"1", "person", []⟩] []).vertices.filter
        (fun v => v.label == "person")).map Elem.vtx ∧
     Traversal.toList ⟨[.hasLabel "person"]⟩
        (run [Op.addE "e1" "knows" "1" "1"] (Graph.mk [⟨"1", "person", []⟩] [])) =
      Traversal.toList ⟨[.hasLabel "person"]⟩ (Graph.mk [⟨"1", "person", []⟩] [])) :=
  ⟨by decide,
   hasLabel_toList_insertion_order (Graph.mk [⟨"1", "person", []⟩] []) "person"
     [Op.addE "e1" "knows" "1" "1"] (by decide)⟩

/-- C5: terminal results are recomputed from the current graph on each
invocation: re-invoking `toList()` on the same traversal definition after an
`AddVertex` mutation yields the previous result extended with the new vertex —
the mutation is reflected, nothing is served from a cache of the first
evaluation. -/
theorem toList_recomputed_after_mutation (g : Graph) (lab i : String)
    (h : g.hasVertex i = false) :
    Traversal.toList ⟨[.hasLabel lab]⟩ (stepOp g (.addV i lab)) =
      Traversal.toList ⟨[.hasLabel lab]⟩ g ++ [Elem.vtx ⟨i, lab, []⟩] := by
  have hstep : stepOp g (.addV i lab) =
      { g with vertices := g.vertices ++ [⟨i, lab, []⟩] } := by
    simp [stepOp, applyOp, addVertex, h]
  rw [hstep, toList_hasLabel, toList_hasLabel]
  simp [List.filter_append]

/-- Witness for C5 at a concrete input: the empty graph, then adding person
"1". -/
theorem toList_recomputed_after_mutation_witness :
    Graph.empty.hasVertex "1" = false ∧
    Traversal.toList ⟨[.hasLabel "person"]⟩ (stepOp Graph.empty (.addV "1" "person")) =
      Traversal.toList ⟨[.hasLabel "person"]⟩ Graph.empty ++
        [Elem.vtx ⟨"1", "person", []⟩] :=
  ⟨rfl, toList_recomputed_after_mutation Graph.empty "person" "1" rfl⟩

/-- C9: `Close` is idempotent: closing a session succeeds, closing it again
also succeeds and yields the same closed state. -/
theorem closeSession_idempotent (s : Session) :
    ∃ s2, closeSession s = .ok s2 ∧ closeSession s2 = .ok s2 ∧ s2.isOpen = false :=
  ⟨⟨false⟩, rfl, rfl, rfl⟩

/-- C6 counterexample: on the execution path where the first remote operation
(the addV of Alice) raises, src/Allen.py never reaches `connection.close()` —
the script installs no handler or finally block, so the error path skips the
release of the session. -/
theorem close_skipped_when_first_op_raises :
    Stmt.closeConn ∉ execStmts (fun s => s == Stmt.remoteOp 0) allenScript := by
  decide

/-- C6 amended: `connection.close()` in src/Allen.py is executed exactly on the
error-free path: it is reached if and only if no statement of the script
raises; on any path where some operation fails, the session is not released
before the program exits. -/
theorem close_reached_iff_no_raise (raises : Stmt → Bool) :
    Stmt.closeConn ∈ execStmts raises allenScript ↔
      ∀ s ∈ allenScript, raises s = false := by
  unfold allenScript
  cases h0 : raises (.remoteOp 0) <;> cases h1 : raises (.remoteOp 1) <;>
    cases h2 : raises (.remoteOp 2) <;> cases h3 : raises (.remoteOp 3) <;>
    cases h4 : raises .closeConn <;>
    simp [execStmts, h0, h1, h2, h3, h4]

/-- C10: in the script's fixed operation order the vertices "1" and "2" are
both present in the graph state reached just before the edge-creation step, so
that step does not take the NotFound branch and the whole run succeeds. -/
theorem allen_notFound_unreachable :
    (run (allenOps.take 4) Graph.empty).hasVertex "1" = true ∧
    (run (allenOps.take 4) Graph.empty).hasVertex "2" = true ∧
    addEdge (run (allenOps.take 4) Graph.empty) "e1" "knows" "1" "2" ≠
      .error .notFound ∧
    ∃ gf, runE allenOps Graph.empty = .ok gf := by
  refine ⟨by decide, by decide, ?_, ⟨_, rfl⟩⟩
  have hok : ∃ g5, addEdge (run (allenOps.take 4) Graph.empty) "e1" "knows" "1" "2" =
      .ok g5 := ⟨_, rfl⟩
  rcases hok with ⟨g5, hg5⟩
  intro h
  rw [hg5] at h
  exact Except.noConfusion h

end Spirits
